import Mathlib

/-!
Shallow embedding of the xgboost base regression-tree learner
(class `BaseTree` in `src/xgboost/BaseTree.py`): recursive training with
stopping rules, greedy gain-based split selection, dataset partitioning,
tree-walk prediction and mean-squared-error scoring.

Numbers are modelled as exact rationals.  A dataframe row is a feature
valuation together with its gradient column `g` and hessian column `h`.
The pandas boolean-mask partition over the aligned `X`/`y` is modelled by
filtering the zipped list.  A Python exception (the `IndexError` reached
when the candidate list is empty, and its propagation through `train`)
is modelled by `Option`/`none`.
-/

namespace BaseTree

/-- A row of the feature matrix: named feature values plus the reserved
gradient column `g` and hessian column `h`. -/
structure Row where
  feats : String → Rat
  g : Rat
  h : Rat

instance : Inhabited Row := ⟨⟨fun _ => 0, 0, 0⟩⟩

/-- The gradient sum over a dataset: `X["g"].sum()`. -/
def sumG (X : List Row) : Rat := (X.map Row.g).sum

/-- The hessian sum over a dataset: `X["h"].sum()`. -/
def sumH (X : List Row) : Rat := (X.map Row.h).sum

/-- The column of values a feature takes on a dataset: `X[f]`. -/
def column (X : List Row) (f : String) : List Rat := X.map fun r => r.feats f

/-- The distinct values of a column in ascending order:
`X[f].drop_duplicates().sort_values(ascending=True)`. -/
def distinctSorted (l : List Rat) : List Rat := List.insertionSort (· ≤ ·) l.dedup

/-- The split gain `Gl^2/(Hl+lam) + Gr^2/(Hr+lam) - G^2/(H+lam)` with
`Gr = G - Gl` and `Hr = H - Hl`, as computed in `select_best_split`. -/
def gainOf (lam G H Gl Hl : Rat) : Rat :=
  Gl ^ 2 / (Hl + lam) + (G - Gl) ^ 2 / ((H - Hl) + lam) - G ^ 2 / (H + lam)

/-- The inner loop of `select_best_split` for one candidate feature `f`:
walk the remaining candidate values `vs` keeping the running left sums
`Gl`, `Hl`; at each value add the `g`/`h` sums of the rows whose feature
equals that value, skip the candidate when a denominator would be zero
(`-lam in (Hl, Hr, H)`), otherwise record `(f, value, gain)`. -/
def scanFeature (lam G H : Rat) (f : String) (X : List Row) :
    Rat → Rat → List Rat → List (String × Rat × Rat)
  | _, _, [] => []
  | Gl, Hl, v :: vs =>
    let Gl' := Gl + sumG (X.filter fun r => decide (r.feats f = v))
    let Hl' := Hl + sumH (X.filter fun r => decide (r.feats f = v))
    let Hr := H - Hl'
    if Hl' = -lam ∨ Hr = -lam ∨ H = -lam then
      scanFeature lam G H f X Gl' Hl' vs
    else
      (f, v, gainOf lam G H Gl' Hl') :: scanFeature lam G H f X Gl' Hl' vs

/-- The full candidate list `gain_ls` built by `select_best_split`:
features in the fixed column order, each scanned over its distinct
values in ascending order, starting from `Gl = Hl = 0`. -/
def candidates (lam : Rat) (feats : List String) (X : List Row) (G H : Rat) :
    List (String × Rat × Rat) :=
  feats.foldr (fun f acc => scanFeature lam G H f X 0 0 (distinctSorted (column X f)) ++ acc) []

/-- The selection loop of `select_best_split`: start from the first
candidate and replace the current best only on strictly larger gain. -/
def pickBest (c : String × Rat × Rat) (cs : List (String × Rat × Rat)) : String × Rat × Rat :=
  cs.foldl (fun best x => if best.2.2 < x.2.2 then x else best) c

/-- `select_best_split`.  The Python code indexes `gain_ls[best_index]`
unconditionally; on an empty candidate list that raises `IndexError`,
modelled here by `none`. -/
def select_best_split (lam : Rat) (feats : List String) (X : List Row) (G H : Rat) :
    Option (String × Rat × Rat) :=
  match candidates lam feats X G H with
  | [] => none
  | c :: cs => some (pickBest c cs)

/-- `split_dataset`: `group_index = X[f] > v`; left is `~group_index`,
right is `group_index`, applied to the aligned `X` and `y`. -/
def split_dataset (X : List Row) (y : List Rat) (f : String) (v : Rat) :
    (List Row × List Rat) × (List Row × List Rat) :=
  let pairs := X.zip y
  let left := pairs.filter fun p => !decide (v < p.1.feats f)
  let right := pairs.filter fun p => decide (v < p.1.feats f)
  ((left.map Prod.fst, left.map Prod.snd), (right.map Prod.fst, right.map Prod.snd))

/-- The trained tree: the Python dict-of-dicts
`{feature: {"v(l)": left, "v(r)": right}}` with float leaves, as a
tagged variant. -/
inductive Tree where
  | Leaf (value : Rat)
  | Node (feature : String) (threshold : Rat) (left right : Tree)
deriving DecidableEq

/-- Depth of nesting of a trained tree (a bare leaf has height 0). -/
def Tree.height : Tree → Nat
  | Tree.Leaf _ => 0
  | Tree.Node _ _ l r => 1 + max l.height r.height

/-- The constructor parameters of `BaseTree`. -/
structure Config where
  max_depth : Nat
  min_samples_split : Nat
  split_threshold : Rat
  gamma : Rat
  Lambda : Rat
deriving DecidableEq

/-- `train`: recompute `G`/`H` over the rows reaching the node, apply the
three stopping rules in order (depth, sample floor, gain floor) each
emitting the leaf `-G/(H+Lambda)`, otherwise split on the best candidate
and recurse on both halves at `depth+1`.  `loss_reduction` is computed
(for logging) but never used.  `none` models a propagated exception from
an empty candidate list. -/
def train (cfg : Config) (feats : List String) (X : List Row) (y : List Rat)
    (depth : Nat) : Option Tree :=
  let G := sumG X
  let H := sumH X
  if _hd : cfg.max_depth < depth then
    some (Tree.Leaf (-G / (H + cfg.Lambda)))
  else if X.length < cfg.min_samples_split then
    some (Tree.Leaf (-G / (H + cfg.Lambda)))
  else
    match select_best_split cfg.Lambda feats X G H with
    | none => none
    | some (bf, bv, gain) =>
      if gain < cfg.split_threshold then
        some (Tree.Leaf (-G / (H + cfg.Lambda)))
      else
        let _loss_reduction := (1 / 2 : Rat) * gain - cfg.gamma
        let parts := split_dataset X y bf bv
        match train cfg feats parts.1.1 parts.1.2 (depth + 1),
              train cfg feats parts.2.1 parts.2.2 (depth + 1) with
        | some tl, some tr => some (Tree.Node bf bv tl tr)
        | _, _ => none
termination_by cfg.max_depth + 1 - depth
decreasing_by all_goals omega

/-- `single_predict`: walk the tree, going right when the row's value for
the node's feature is strictly greater than the threshold. -/
def single_predict (x : Row) : Tree → Rat
  | Tree.Leaf v => v
  | Tree.Node f t l r => if t < x.feats f then single_predict x r else single_predict x l

/-- `predict`: loop `i` over `range(X.shape[0])` collecting
`single_predict(X.iloc[i])`. -/
def predict (t : Tree) (X : List Row) : List Rat :=
  (List.range X.length).map fun i => single_predict (X.getD i default) t

/-- `score`: `pow(predict(X) - y, 2).mean()`. -/
def score (t : Tree) (X : List Row) (y : List Rat) : Rat :=
  let preds := predict t X
  (List.zipWith (fun a b => (a - b) ^ 2) preds y).sum / (preds.length : Rat)

/-- The sum of the `g` column over the rows whose feature value is at
most `v` — the value the running left sum `G_l` reaches after folding in
all distinct values up to `v`. -/
def leSumG (X : List Row) (f : String) (v : Rat) : Rat :=
  sumG (X.filter fun r => decide (r.feats f ≤ v))

/-- The sum of the `h` column over the rows whose feature value is at
most `v`. -/
def leSumH (X : List Row) (f : String) (v : Rat) : Rat :=
  sumH (X.filter fun r => decide (r.feats f ≤ v))

/-- The degenerate-denominator test of `select_best_split`:
`-lam in (Hl, Hr, H)` with `Hr = H - Hl`. -/
def degB (lam H Hl : Rat) : Bool :=
  decide (Hl = -lam) || decide (H - Hl = -lam) || decide (H = -lam)

section Lemmas

/-- Splitting a filtered sum over a pointwise-disjoint cover of the
filter predicate. -/
theorem sum_map_filter_split {α : Type} (g : α → Rat) (p q pq : α → Bool) :
    ∀ l : List α, (∀ a ∈ l, pq a = (p a || q a)) → (∀ a ∈ l, ¬(p a = true ∧ q a = true)) →
      ((l.filter pq).map g).sum = ((l.filter p).map g).sum + ((l.filter q).map g).sum := by
  intro l
  induction l with
  | nil => simp
  | cons a l ih =>
    intro hpq hdisj
    have hpq' := hpq a (by simp)
    have hdisj' := hdisj a (by simp)
    have ihl := ih (fun b hb => hpq b (by simp [hb])) (fun b hb => hdisj b (by simp [hb]))
    cases hp : p a <;> cases hq : q a
    · simp [List.filter_cons, hpq', hp, hq, ihl]
    · simp [List.filter_cons, hpq', hp, hq, ihl]
      ring
    · simp [List.filter_cons, hpq', hp, hq, ihl]
      ring
    · exact absurd ⟨hp, hq⟩ hdisj'

/-- Membership in `distinctSorted` is membership in the column. -/
theorem mem_distinctSorted {v : Rat} {l : List Rat} : v ∈ distinctSorted l ↔ v ∈ l := by
  unfold distinctSorted
  rw [(List.perm_insertionSort _ _).mem_iff, List.mem_dedup]

/-- The enumerated distinct values are strictly increasing. -/
theorem pairwise_lt_distinctSorted (l : List Rat) : (distinctSorted l).Pairwise (· < ·) := by
  have hs : (distinctSorted l).Pairwise (· ≤ ·) :=
    List.sorted_insertionSort (· ≤ ·) l.dedup
  have hn : (distinctSorted l).Pairwise (· ≠ ·) :=
    ((List.perm_insertionSort _ _).nodup_iff).mpr (List.nodup_dedup l)
  exact (hs.and hn).imp fun h => lt_of_le_of_ne h.1 h.2

/-- Membership in a fold of appended per-feature lists. -/
theorem mem_foldr_append {β γ : Type} (L : β → List γ) (fs : List β) (c : γ) :
    c ∈ fs.foldr (fun f acc => L f ++ acc) [] ↔ ∃ f ∈ fs, c ∈ L f := by
  induction fs with
  | nil => simp
  | cons f fs ih => simp [ih]

/-- Characterization of the per-feature scan of `select_best_split`:
over a strictly increasing value list that (together with the already
consumed values `ds`) covers the column, the scan emits, at each value
`v` passing the degenerate-denominator test, the triple `(f, v, gain)`
whose accumulated left sums are the `g`/`h` sums over the rows with
feature value at most `v`. -/
theorem scanFeature_eq (lam G H : Rat) (f : String) (X : List Row) :
    ∀ (vs ds : List Rat), (ds ++ vs).Pairwise (· < ·) →
      (∀ r ∈ X, r.feats f ∈ ds ++ vs) →
      scanFeature lam G H f X
          (sumG (X.filter fun r => decide (r.feats f ∈ ds)))
          (sumH (X.filter fun r => decide (r.feats f ∈ ds))) vs
        = (vs.filter fun v => !degB lam H (leSumH X f v)).map
            (fun v => (f, v, gainOf lam G H (leSumG X f v) (leSumH X f v))) := by
  intro vs
  induction vs with
  | nil => intro ds _ _; rfl
  | cons v vs ih =>
    intro ds hsort hmem
    have hdv : ∀ d ∈ ds, d < v := fun d hd =>
      (List.pairwise_append.mp hsort).2.2 d hd v (List.mem_cons_self v vs)
    have hvv : ∀ w ∈ vs, v < w := fun w hw =>
      List.rel_of_pairwise_cons (List.pairwise_append.mp hsort).2.1 hw
    have hpoint : ∀ r ∈ X, (r.feats f ≤ v ↔ (r.feats f ∈ ds ∨ r.feats f = v)) := by
      intro r hr
      constructor
      · intro hle
        rcases List.mem_append.mp (hmem r hr) with h | h
        · exact Or.inl h
        · rcases List.mem_cons.mp h with h | h
          · exact Or.inr h
          · exact absurd hle (not_le.mpr (hvv _ h))
      · rintro (h | h)
        · exact le_of_lt (hdv _ h)
        · exact le_of_eq h
    have hboolOr : ∀ r ∈ X, (decide (r.feats f ≤ v) : Bool)
        = (decide (r.feats f ∈ ds) || decide (r.feats f = v)) := by
      intro r hr
      by_cases h : r.feats f ≤ v
      · rcases (hpoint r hr).mp h with h1 | h1 <;> simp [h, h1]
      · have h2 : ¬(r.feats f ∈ ds ∨ r.feats f = v) := fun hc => h ((hpoint r hr).mpr hc)
        push_neg at h2
        simp [h, h2.1, h2.2]
    have hdisjB : ∀ r ∈ X,
        ¬(decide (r.feats f ∈ ds) = true ∧ decide (r.feats f = v) = true) := by
      rintro r hr ⟨h1, h2⟩
      rw [decide_eq_true_eq] at h1 h2
      exact ne_of_lt (hdv _ h1) h2
    have hGacc : sumG (X.filter fun r => decide (r.feats f ∈ ds))
        + sumG (X.filter fun r => decide (r.feats f = v)) = leSumG X f v := by
      simp only [leSumG, sumG]
      exact (sum_map_filter_split Row.g _ _ _ X hboolOr hdisjB).symm
    have hHacc : sumH (X.filter fun r => decide (r.feats f ∈ ds))
        + sumH (X.filter fun r => decide (r.feats f = v)) = leSumH X f v := by
      simp only [leSumH, sumH]
      exact (sum_map_filter_split Row.h _ _ _ X hboolOr hdisjB).symm
    have hshift : (X.filter fun r => decide (r.feats f ∈ ds ++ [v]))
        = (X.filter fun r => decide (r.feats f ≤ v)) := by
      apply List.filter_congr
      intro r hr
      rw [decide_eq_decide, List.mem_append, List.mem_singleton]
      exact (hpoint r hr).symm
    have hassoc : (ds ++ [v]) ++ vs = ds ++ v :: vs := by simp
    have hsort' : ((ds ++ [v]) ++ vs).Pairwise (· < ·) := by rw [hassoc]; exact hsort
    have hmem' : ∀ r ∈ X, r.feats f ∈ (ds ++ [v]) ++ vs := by rw [hassoc]; exact hmem
    have ihv : scanFeature lam G H f X (leSumG X f v) (leSumH X f v) vs
        = (vs.filter fun w => !degB lam H (leSumH X f w)).map
            (fun w => (f, w, gainOf lam G H (leSumG X f w) (leSumH X f w))) := by
      have e1 : leSumG X f v = sumG (X.filter fun r => decide (r.feats f ∈ ds ++ [v])) := by
        rw [leSumG, hshift]
      have e2 : leSumH X f v = sumH (X.filter fun r => decide (r.feats f ∈ ds ++ [v])) := by
        rw [leSumH, hshift]
      rw [e1, e2]
      exact ih (ds ++ [v]) hsort' hmem'
    rw [scanFeature]
    simp only [hGacc, hHacc]
    by_cases hcond : leSumH X f v = -lam ∨ H - leSumH X f v = -lam ∨ H = -lam
    · have hdeg : degB lam H (leSumH X f v) = true := by
        rcases hcond with h | h | h <;> simp [degB, h]
      rw [if_pos hcond, List.filter_cons, ihv]
      simp [hdeg]
    · have hdeg : degB lam H (leSumH X f v) = false := by
        push_neg at hcond
        simp only [degB, Bool.or_eq_false_iff, decide_eq_false_iff_not]
        exact ⟨⟨hcond.1, hcond.2.1⟩, hcond.2.2⟩
      rw [if_neg hcond, List.filter_cons, ihv]
      simp [hdeg]

/-- Closed form of the whole candidate list `gain_ls`: per feature, the
ascending distinct values that pass the degenerate-denominator test,
with the gain computed from the row sums at feature value at most the
threshold. -/
theorem candidates_eq (lam : Rat) (feats : List String) (X : List Row) (G H : Rat) :
    candidates lam feats X G H
      = feats.foldr (fun f acc =>
          (((distinctSorted (column X f)).filter fun v => !degB lam H (leSumH X f v)).map
            (fun v => (f, v, gainOf lam G H (leSumG X f v) (leSumH X f v)))) ++ acc) [] := by
  unfold candidates
  induction feats with
  | nil => rfl
  | cons f fs ih =>
    simp only [List.foldr_cons, ih]
    congr 1
    have h0g : sumG (X.filter fun r => decide (r.feats f ∈ ([] : List Rat))) = 0 := by
      simp [sumG]
    have h0h : sumH (X.filter fun r => decide (r.feats f ∈ ([] : List Rat))) = 0 := by
      simp [sumH]
    have := scanFeature_eq lam G H f X (distinctSorted (column X f)) []
      (by simpa using pairwise_lt_distinctSorted (column X f))
      (by
        intro r hr
        simp only [List.nil_append]
        exact mem_distinctSorted.mpr (List.mem_map.mpr ⟨r, hr, rfl⟩))
    rw [h0g, h0h] at this
    exact this

/-- The selection fold keeps the first candidate attaining the maximum
gain: either nothing beats the accumulator, or the result sits in the
scanned list with strictly smaller gains before it (and the accumulator
also strictly below). -/
theorem pickBest_spec :
    ∀ (cs : List (String × Rat × Rat)) (c : String × Rat × Rat),
      (pickBest c cs = c ∧ ∀ x ∈ cs, x.2.2 ≤ c.2.2)
      ∨ (c.2.2 < (pickBest c cs).2.2
          ∧ ∃ pre post, cs = pre ++ (pickBest c cs) :: post
            ∧ (∀ x ∈ pre, x.2.2 < (pickBest c cs).2.2)
            ∧ (∀ x ∈ post, x.2.2 ≤ (pickBest c cs).2.2)) := by
  intro cs
  induction cs with
  | nil =>
    intro c
    left
    exact ⟨rfl, by simp⟩
  | cons x cs ih =>
    intro c
    have hstep : pickBest c (x :: cs) = pickBest (if c.2.2 < x.2.2 then x else c) cs := rfl
    by_cases hcx : c.2.2 < x.2.2
    · rw [hstep, if_pos hcx]
      rcases ih x with ⟨heq, hall⟩ | ⟨hlt, pre, post, hsplit, hpre, hpost⟩
      · right
        rw [heq]
        exact ⟨hcx, [], cs, by simp, by simp, hall⟩
      · right
        refine ⟨lt_trans hcx hlt, x :: pre, post, by rw [List.cons_append, ← hsplit], ?_, hpost⟩
        intro z hz
        rcases List.mem_cons.mp hz with h | h
        · rw [h]; exact hlt
        · exact hpre z h
    · rw [hstep, if_neg hcx]
      have hxc : x.2.2 ≤ c.2.2 := le_of_not_lt hcx
      rcases ih c with ⟨heq, hall⟩ | ⟨hlt, pre, post, hsplit, hpre, hpost⟩
      · left
        refine ⟨heq, ?_⟩
        intro z hz
        rcases List.mem_cons.mp hz with h | h
        · rw [h]; exact hxc
        · exact hall z h
      · right
        refine ⟨hlt, x :: pre, post, by rw [List.cons_append, ← hsplit], ?_, hpost⟩
        intro z hz
        rcases List.mem_cons.mp hz with h | h
        · rw [h]; exact lt_of_le_of_lt hxc hlt
        · exact hpre z h

/-- A successful `select_best_split` returns the first candidate of the
built list attaining the maximum gain. -/
theorem select_best_split_first_max (lam : Rat) (feats : List String) (X : List Row)
    (G H : Rat) (c : String × Rat × Rat)
    (hsel : select_best_split lam feats X G H = some c) :
    ∃ pre post, candidates lam feats X G H = pre ++ c :: post
      ∧ (∀ x ∈ pre, x.2.2 < c.2.2) ∧ (∀ x ∈ post, x.2.2 ≤ c.2.2) := by
  unfold select_best_split at hsel
  cases hc : candidates lam feats X G H with
  | nil => rw [hc] at hsel; exact absurd hsel (by simp)
  | cons c0 cs =>
    rw [hc] at hsel
    have hpick : pickBest c0 cs = c := by
      simpa using hsel
    rcases pickBest_spec cs c0 with ⟨heq, hall⟩ | ⟨hlt, pre, post, hsplit, hpre, hpost⟩
    · refine ⟨[], cs, ?_, by simp, ?_⟩
      · rw [List.nil_append, ← hpick, heq]
      · intro z hz
        rw [← hpick, heq]
        exact hall z hz
    · rw [hpick] at hlt hsplit hpre hpost
      exact ⟨c0 :: pre, post, by rw [List.cons_append, ← hsplit], by
        intro z hz
        rcases List.mem_cons.mp hz with h | h
        · rw [h]; exact hlt
        · exact hpre z h, hpost⟩

/-- Membership in the candidate list, in closed form. -/
theorem mem_candidates (lam : Rat) (feats : List String) (X : List Row) (G H : Rat)
    (c : String × Rat × Rat) :
    c ∈ candidates lam feats X G H
      ↔ ∃ f ∈ feats, ∃ v, v ∈ distinctSorted (column X f)
          ∧ degB lam H (leSumH X f v) = false
          ∧ c = (f, v, gainOf lam G H (leSumG X f v) (leSumH X f v)) := by
  rw [candidates_eq, mem_foldr_append]
  constructor
  · rintro ⟨f, hf, hc⟩
    rcases List.mem_map.mp hc with ⟨v, hv, hcv⟩
    have hv' := List.mem_filter.mp hv
    refine ⟨f, hf, v, hv'.1, ?_, hcv.symm⟩
    simpa using hv'.2
  · rintro ⟨f, hf, v, hv, hdeg, hcv⟩
    refine ⟨f, hf, List.mem_map.mpr ⟨v, List.mem_filter.mpr ⟨hv, by simp [hdeg]⟩, hcv.symm⟩⟩

end Lemmas

/-- C2: every candidate recorded by `select_best_split` on a dataset with
total sums `G = sum of g` and `H = sum of h` carries the gain
`G_l^2/(H_l+lam) + G_r^2/(H_r+lam) - G^2/(H+lam)` where `G_l`/`H_l` are
the accumulated left-side sums (the `g`/`h` sums over rows with feature
value at most the candidate threshold) and `G_r = G - G_l`,
`H_r = H - H_l`. -/
theorem claim_C2_gain_formula (lam : Rat) (feats : List String) (X : List Row)
    (c : String × Rat × Rat)
    (hc : c ∈ candidates lam feats X (sumG X) (sumH X)) :
    c.2.2 = (leSumG X c.1 c.2.1) ^ 2 / (leSumH X c.1 c.2.1 + lam)
        + (sumG X - leSumG X c.1 c.2.1) ^ 2 / ((sumH X - leSumH X c.1 c.2.1) + lam)
        - (sumG X) ^ 2 / (sumH X + lam) := by
  rcases (mem_candidates lam feats X (sumG X) (sumH X) c).mp hc with ⟨f, hf, v, hv, hdeg, hcv⟩
  subst hcv
  rfl

/-- C3: `select_best_split` scans each feature's distinct values in
strictly ascending order (exactly the values occurring in the column),
every candidate is a (feature, occurring value) pair, and the selected
candidate is the one with maximum gain, ties broken by
first-encountered order (all earlier candidates have strictly smaller
gain). -/
theorem claim_C3_enumeration_selection (lam : Rat) (feats : List String) (X : List Row)
    (G H : Rat) :
    (∀ f, (distinctSorted (column X f)).Pairwise (· < ·)
        ∧ ∀ v, v ∈ distinctSorted (column X f) ↔ v ∈ column X f)
    ∧ (∀ c ∈ candidates lam feats X G H, c.1 ∈ feats ∧ c.2.1 ∈ column X c.1)
    ∧ (∀ c, select_best_split lam feats X G H = some c →
        c ∈ candidates lam feats X G H
        ∧ (∀ x ∈ candidates lam feats X G H, x.2.2 ≤ c.2.2)
        ∧ ∃ pre post, candidates lam feats X G H = pre ++ c :: post
            ∧ ∀ x ∈ pre, x.2.2 < c.2.2) := by
  refine ⟨?_, ?_, ?_⟩
  · intro f
    exact ⟨pairwise_lt_distinctSorted _, fun v => mem_distinctSorted⟩
  · intro c hc
    rcases (mem_candidates lam feats X G H c).mp hc with ⟨f, hf, v, hv, _, hcv⟩
    subst hcv
    exact ⟨hf, mem_distinctSorted.mp hv⟩
  · intro c hsel
    rcases select_best_split_first_max lam feats X G H c hsel with
      ⟨pre, post, hsplit, hpre, hpost⟩
    refine ⟨?_, ?_, pre, post, hsplit, hpre⟩
    · rw [hsplit]
      exact List.mem_append.mpr (Or.inr (List.mem_cons_self _ _))
    · intro x hx
      rw [hsplit] at hx
      rcases List.mem_append.mp hx with h | h
      · exact le_of_lt (hpre x h)
      · rcases List.mem_cons.mp h with h | h
        · rw [h]
        · exact hpost x h

/-- C7: the degenerate-denominator rule is exact — every recorded
candidate has all three denominators `H_l+lam`, `H_r+lam`, `H+lam`
nonzero, and conversely every (feature, occurring value) pair that does
not hit the `-lam` test is recorded, with its gain. -/
theorem claim_C7_degenerate_filter (lam : Rat) (feats : List String) (X : List Row)
    (G H : Rat) :
    (∀ c ∈ candidates lam feats X G H,
        leSumH X c.1 c.2.1 + lam ≠ 0
        ∧ (H - leSumH X c.1 c.2.1) + lam ≠ 0
        ∧ H + lam ≠ 0)
    ∧ (∀ f ∈ feats, ∀ v ∈ column X f,
        ¬(leSumH X f v = -lam ∨ H - leSumH X f v = -lam ∨ H = -lam) →
        (f, v, gainOf lam G H (leSumG X f v) (leSumH X f v)) ∈ candidates lam feats X G H) := by
  constructor
  · intro c hc
    rcases (mem_candidates lam feats X G H c).mp hc with ⟨f, hf, v, hv, hdeg, hcv⟩
    subst hcv
    simp only [degB, Bool.or_eq_false_iff, decide_eq_false_iff_not] at hdeg
    exact ⟨fun h => hdeg.1.1 (eq_neg_iff_add_eq_zero.mpr h),
      fun h => hdeg.1.2 (eq_neg_iff_add_eq_zero.mpr h),
      fun h => hdeg.2 (eq_neg_iff_add_eq_zero.mpr h)⟩
  · intro f hf v hv hnd
    apply (mem_candidates lam feats X G H _).mpr
    push_neg at hnd
    refine ⟨f, hf, v, mem_distinctSorted.mpr hv, ?_, rfl⟩
    simp only [degB, Bool.or_eq_false_iff, decide_eq_false_iff_not]
    exact ⟨⟨hnd.1, hnd.2.1⟩, hnd.2.2⟩

/-- A dataset on which every split candidate is filtered out: the total
hessian sum equals `-Lambda`, so the third member of the
division-by-zero test holds at every candidate value. -/
def rowDeg : Row := ⟨fun _ => 0, 1, -1⟩

/-- C4 (counter-evidence): with `Lambda = 1` and a dataset whose hessian
column sums to `-1`, the candidate list `gain_ls` is empty and
`select_best_split` reaches `gain_ls[0]` on the empty list — modelled by
`none`; no explicit configuration error is raised by the code. -/
theorem select_best_split_empty_candidates :
    candidates 1 ["a"] [rowDeg] (sumG [rowDeg]) (sumH [rowDeg]) = []
    ∧ select_best_split 1 ["a"] [rowDeg] (sumG [rowDeg]) (sumH [rowDeg]) = none := by
  have h : candidates 1 ["a"] [rowDeg] (sumG [rowDeg]) (sumH [rowDeg]) = [] := by
    norm_num [candidates, scanFeature, distinctSorted, column, sumG, sumH, rowDeg,
      List.dedup, List.insertionSort, gainOf, degB, leSumG, leSumH]
  exact ⟨h, by rw [select_best_split, h]⟩

section TrainLemmas

/-- One-step unfolding of `train` with the stopping rules spelled out. -/
theorem train_eq (cfg : Config) (feats : List String) (X : List Row) (y : List Rat)
    (depth : Nat) :
    train cfg feats X y depth =
      if cfg.max_depth < depth then
        some (Tree.Leaf (-sumG X / (sumH X + cfg.Lambda)))
      else if X.length < cfg.min_samples_split then
        some (Tree.Leaf (-sumG X / (sumH X + cfg.Lambda)))
      else
        match select_best_split cfg.Lambda feats X (sumG X) (sumH X) with
        | none => none
        | some (bf, bv, gain) =>
          if gain < cfg.split_threshold then
            some (Tree.Leaf (-sumG X / (sumH X + cfg.Lambda)))
          else
            match
              train cfg feats (split_dataset X y bf bv).1.1 (split_dataset X y bf bv).1.2
                (depth + 1),
              train cfg feats (split_dataset X y bf bv).2.1 (split_dataset X y bf bv).2.2
                (depth + 1) with
            | some tl, some tr => some (Tree.Node bf bv tl tr)
            | _, _ => none := by
  rw [train]
  rfl

/-- Stopping rule 1: depth exceeded. -/
theorem train_leaf_of_depth (cfg : Config) (feats : List String) (X : List Row)
    (y : List Rat) (depth : Nat) (h1 : cfg.max_depth < depth) :
    train cfg feats X y depth = some (Tree.Leaf (-sumG X / (sumH X + cfg.Lambda))) := by
  rw [train_eq, if_pos h1]

/-- Stopping rule 2: sample-size floor. -/
theorem train_leaf_of_min_samples (cfg : Config) (feats : List String) (X : List Row)
    (y : List Rat) (depth : Nat) (h1 : ¬cfg.max_depth < depth)
    (h2 : X.length < cfg.min_samples_split) :
    train cfg feats X y depth = some (Tree.Leaf (-sumG X / (sumH X + cfg.Lambda))) := by
  rw [train_eq, if_neg h1, if_pos h2]

/-- The exception path: no candidate at all. -/
theorem train_none_of_select_none (cfg : Config) (feats : List String) (X : List Row)
    (y : List Rat) (depth : Nat) (h1 : ¬cfg.max_depth < depth)
    (h2 : ¬X.length < cfg.min_samples_split)
    (hsel : select_best_split cfg.Lambda feats X (sumG X) (sumH X) = none) :
    train cfg feats X y depth = none := by
  rw [train_eq, if_neg h1, if_neg h2, hsel]

/-- After a successful split search, only the gain floor remains. -/
theorem train_of_select_some (cfg : Config) (feats : List String) (X : List Row)
    (y : List Rat) (depth : Nat) (bf : String) (bv gain : Rat)
    (h1 : ¬cfg.max_depth < depth) (h2 : ¬X.length < cfg.min_samples_split)
    (hsel : select_best_split cfg.Lambda feats X (sumG X) (sumH X) = some (bf, bv, gain)) :
    train cfg feats X y depth =
      if gain < cfg.split_threshold then
        some (Tree.Leaf (-sumG X / (sumH X + cfg.Lambda)))
      else
        match
          train cfg feats (split_dataset X y bf bv).1.1 (split_dataset X y bf bv).1.2
            (depth + 1),
          train cfg feats (split_dataset X y bf bv).2.1 (split_dataset X y bf bv).2.2
            (depth + 1) with
        | some tl, some tr => some (Tree.Node bf bv tl tr)
        | _, _ => none := by
  rw [train_eq, if_neg h1, if_neg h2, hsel]

/-- Stopping rule 3: gain floor. -/
theorem train_leaf_of_gain_lt (cfg : Config) (feats : List String) (X : List Row)
    (y : List Rat) (depth : Nat) (bf : String) (bv gain : Rat)
    (h1 : ¬cfg.max_depth < depth) (h2 : ¬X.length < cfg.min_samples_split)
    (hsel : select_best_split cfg.Lambda feats X (sumG X) (sumH X) = some (bf, bv, gain))
    (hg : gain < cfg.split_threshold) :
    train cfg feats X y depth = some (Tree.Leaf (-sumG X / (sumH X + cfg.Lambda))) := by
  rw [train_of_select_some cfg feats X y depth bf bv gain h1 h2 hsel, if_pos hg]

/-- No stopping rule fires: an internal node is built from the best
split and the two halves trained at `depth + 1`. -/
theorem train_node_of_gain_ge (cfg : Config) (feats : List String) (X : List Row)
    (y : List Rat) (depth : Nat) (bf : String) (bv gain : Rat)
    (h1 : ¬cfg.max_depth < depth) (h2 : ¬X.length < cfg.min_samples_split)
    (hsel : select_best_split cfg.Lambda feats X (sumG X) (sumH X) = some (bf, bv, gain))
    (hg : ¬gain < cfg.split_threshold) :
    train cfg feats X y depth =
      match
        train cfg feats (split_dataset X y bf bv).1.1 (split_dataset X y bf bv).1.2
          (depth + 1),
        train cfg feats (split_dataset X y bf bv).2.1 (split_dataset X y bf bv).2.2
          (depth + 1) with
      | some tl, some tr => some (Tree.Node bf bv tl tr)
      | _, _ => none := by
  rw [train_of_select_some cfg feats X y depth bf bv gain h1 h2 hsel, if_neg hg]

end TrainLemmas

/-- C1: the stopping rules of `train` fire in order — depth, sample
floor, gain floor — and each emits the leaf `-G/(H+Lambda)` with `G`/`H`
the `g`/`h` sums over exactly the rows reaching the node; when none
fires, an internal node is built from the best split with both halves
trained at `depth + 1`. -/
theorem claim_C1_stopping_rules (cfg : Config) (feats : List String) (X : List Row)
    (y : List Rat) (depth : Nat) :
    (cfg.max_depth < depth →
      train cfg feats X y depth = some (Tree.Leaf (-sumG X / (sumH X + cfg.Lambda))))
    ∧ (depth ≤ cfg.max_depth → X.length < cfg.min_samples_split →
      train cfg feats X y depth = some (Tree.Leaf (-sumG X / (sumH X + cfg.Lambda))))
    ∧ (∀ bf bv gain, depth ≤ cfg.max_depth → cfg.min_samples_split ≤ X.length →
      select_best_split cfg.Lambda feats X (sumG X) (sumH X) = some (bf, bv, gain) →
      gain < cfg.split_threshold →
      train cfg feats X y depth = some (Tree.Leaf (-sumG X / (sumH X + cfg.Lambda))))
    ∧ (∀ bf bv gain, depth ≤ cfg.max_depth → cfg.min_samples_split ≤ X.length →
      select_best_split cfg.Lambda feats X (sumG X) (sumH X) = some (bf, bv, gain) →
      cfg.split_threshold ≤ gain →
      train cfg feats X y depth =
        match
          train cfg feats (split_dataset X y bf bv).1.1 (split_dataset X y bf bv).1.2
            (depth + 1),
          train cfg feats (split_dataset X y bf bv).2.1 (split_dataset X y bf bv).2.2
            (depth + 1) with
        | some tl, some tr => some (Tree.Node bf bv tl tr)
        | _, _ => none) := by
  refine ⟨?_, ?_, ?_, ?_⟩
  · intro h1
    exact train_leaf_of_depth cfg feats X y depth h1
  · intro h1 h2
    exact train_leaf_of_min_samples cfg feats X y depth (not_lt.mpr h1) h2
  · intro bf bv gain h1 h2 hsel hg
    exact train_leaf_of_gain_lt cfg feats X y depth bf bv gain
      (not_lt.mpr h1) (not_lt.mpr h2) hsel hg
  · intro bf bv gain h1 h2 hsel hg
    exact train_node_of_gain_ge cfg feats X y depth bf bv gain
      (not_lt.mpr h1) (not_lt.mpr h2) hsel (not_lt.mpr hg)

/-- C8: `gamma` never affects the trained tree — two configurations
equal in every field except `gamma` train identically on all inputs. -/
theorem claim_C8_gamma_no_effect (c1 c2 : Config)
    (hmd : c1.max_depth = c2.max_depth)
    (hms : c1.min_samples_split = c2.min_samples_split)
    (hst : c1.split_threshold = c2.split_threshold)
    (hlam : c1.Lambda = c2.Lambda) :
    ∀ feats X y depth, train c1 feats X y depth = train c2 feats X y depth := by
  suffices key : ∀ n depth feats X y, c1.max_depth + 1 - depth ≤ n →
      train c1 feats X y depth = train c2 feats X y depth by
    intro feats X y depth
    exact key (c1.max_depth + 1 - depth) depth feats X y le_rfl
  intro n
  induction n with
  | zero =>
    intro depth feats X y hle
    have hd : c1.max_depth < depth := by omega
    rw [train_leaf_of_depth c1 feats X y depth hd,
      train_leaf_of_depth c2 feats X y depth (hmd ▸ hd), hlam]
  | succ n ih =>
    intro depth feats X y hle
    by_cases hd : c1.max_depth < depth
    · rw [train_leaf_of_depth c1 feats X y depth hd,
        train_leaf_of_depth c2 feats X y depth (hmd ▸ hd), hlam]
    · by_cases hm : X.length < c1.min_samples_split
      · rw [train_leaf_of_min_samples c1 feats X y depth hd hm,
          train_leaf_of_min_samples c2 feats X y depth (hmd ▸ hd) (hms ▸ hm), hlam]
      · cases hsel : select_best_split c1.Lambda feats X (sumG X) (sumH X) with
        | none =>
          rw [train_none_of_select_none c1 feats X y depth hd hm hsel,
            train_none_of_select_none c2 feats X y depth (hmd ▸ hd) (hms ▸ hm) (hlam ▸ hsel)]
        | some c =>
          obtain ⟨bf, bv, gain⟩ := c
          by_cases hg : gain < c1.split_threshold
          · rw [train_leaf_of_gain_lt c1 feats X y depth bf bv gain hd hm hsel hg,
              train_leaf_of_gain_lt c2 feats X y depth bf bv gain (hmd ▸ hd) (hms ▸ hm)
                (hlam ▸ hsel) (hst ▸ hg), hlam]
          · rw [train_node_of_gain_ge c1 feats X y depth bf bv gain hd hm hsel hg,
              train_node_of_gain_ge c2 feats X y depth bf bv gain (hmd ▸ hd) (hms ▸ hm)
                (hlam ▸ hsel) (hst ▸ hg),
              ih (depth + 1) feats (split_dataset X y bf bv).1.1 (split_dataset X y bf bv).1.2
                (by omega),
              ih (depth + 1) feats (split_dataset X y bf bv).2.1 (split_dataset X y bf bv).2.2
                (by omega)]

/-- C10: `train` is total (it is a well-founded Lean function), each
recursive call is at `depth + 1`, and any tree it returns has height at
most `max_depth + 1 - depth`: the recursion depth is bounded by
`max_depth` regardless of how the splits partition the rows. -/
theorem claim_C10_depth_bound (cfg : Config) (feats : List String) (X : List Row)
    (y : List Rat) (depth : Nat) (t : Tree)
    (h : train cfg feats X y depth = some t) :
    t.height ≤ cfg.max_depth + 1 - depth := by
  suffices key : ∀ n depth X y t, cfg.max_depth + 1 - depth ≤ n →
      train cfg feats X y depth = some t → t.height ≤ cfg.max_depth + 1 - depth by
    exact key (cfg.max_depth + 1 - depth) depth X y t le_rfl h
  intro n
  induction n with
  | zero =>
    intro depth X y t hle htr
    have hd : cfg.max_depth < depth := by omega
    rw [train_leaf_of_depth cfg feats X y depth hd] at htr
    have e := Option.some.inj htr
    subst e
    exact Nat.zero_le _
  | succ n ih =>
    intro depth X y t hle htr
    by_cases hd : cfg.max_depth < depth
    · rw [train_leaf_of_depth cfg feats X y depth hd] at htr
      have e := Option.some.inj htr
      subst e
      exact Nat.zero_le _
    · by_cases hm : X.length < cfg.min_samples_split
      · rw [train_leaf_of_min_samples cfg feats X y depth hd hm] at htr
        have e := Option.some.inj htr
        subst e
        exact Nat.zero_le _
      · cases hsel : select_best_split cfg.Lambda feats X (sumG X) (sumH X) with
        | none =>
          rw [train_none_of_select_none cfg feats X y depth hd hm hsel] at htr
          exact absurd htr (by simp)
        | some c =>
          obtain ⟨bf, bv, gain⟩ := c
          by_cases hg : gain < cfg.split_threshold
          · rw [train_leaf_of_gain_lt cfg feats X y depth bf bv gain hd hm hsel hg] at htr
            have e := Option.some.inj htr
            subst e
            exact Nat.zero_le _
          · rw [train_node_of_gain_ge cfg feats X y depth bf bv gain hd hm hsel hg] at htr
            cases hL : train cfg feats (split_dataset X y bf bv).1.1
                (split_dataset X y bf bv).1.2 (depth + 1) with
            | none =>
              rw [hL] at htr
              exact absurd ((rfl : (none : Option Tree) = none).trans htr) (by simp)
            | some tl =>
              rw [hL] at htr
              cases hR : train cfg feats (split_dataset X y bf bv).2.1
                  (split_dataset X y bf bv).2.2 (depth + 1) with
              | none =>
                rw [hR] at htr
                exact absurd ((rfl : (none : Option Tree) = none).trans htr) (by simp)
              | some tr =>
                rw [hR] at htr
                have e : Tree.Node bf bv tl tr = t := Option.some.inj htr
                subst e
                have h1 := ih (depth + 1) _ _ tl (by omega) hL
                have h2 := ih (depth + 1) _ _ tr (by omega) hR
                have hmax : max tl.height tr.height ≤ cfg.max_depth + 1 - (depth + 1) :=
                  max_le h1 h2
                simp only [Tree.height]
                omega

section SplitLemmas

/-- Zipping the two projections of a pair list gives the list back. -/
theorem zip_map_fst_snd {α β : Type} :
    ∀ l : List (α × β), (l.map Prod.fst).zip (l.map Prod.snd) = l := by
  intro l
  induction l with
  | nil => rfl
  | cons p l ih => simp [ih]

/-- Filtering the zipped rows by a condition on the row and projecting
back to rows is filtering the rows. -/
theorem map_fst_filter_zip (q : Row → Bool) :
    ∀ (X : List Row) (y : List Rat), X.length = y.length →
      ((X.zip y).filter fun p => q p.1).map Prod.fst = X.filter q := by
  intro X
  induction X with
  | nil => intro y _; rfl
  | cons x X ih =>
    intro y h
    cases y with
    | nil => simp at h
    | cons b y =>
      have h' : X.length = y.length := by simpa using h
      cases hq : q x <;> simp [List.filter_cons, hq, ih y h']

end SplitLemmas

/-- C5: `split_dataset` sends exactly the rows with feature value at
most the threshold left and the rest right, keeps labels aligned with
their rows, partitions the input with no duplication or omission, and
preserves row order on each side. -/
theorem claim_C5_partition (X : List Row) (y : List Rat) (f : String) (v : Rat)
    (h : X.length = y.length) :
    (split_dataset X y f v).1.1 = X.filter (fun r => decide (r.feats f ≤ v))
    ∧ (split_dataset X y f v).2.1 = X.filter (fun r => decide (v < r.feats f))
    ∧ ((split_dataset X y f v).1.1.zip (split_dataset X y f v).1.2
        ++ (split_dataset X y f v).2.1.zip (split_dataset X y f v).2.2).Perm (X.zip y)
    ∧ ((split_dataset X y f v).1.1.zip (split_dataset X y f v).1.2).Sublist (X.zip y)
    ∧ ((split_dataset X y f v).2.1.zip (split_dataset X y f v).2.2).Sublist (X.zip y)
    ∧ (split_dataset X y f v).1.1.length = (split_dataset X y f v).1.2.length
    ∧ (split_dataset X y f v).2.1.length = (split_dataset X y f v).2.2.length := by
  simp only [split_dataset]
  have hL : ((X.zip y).filter fun p => !decide (v < p.1.feats f)).map Prod.fst
      = X.filter fun r => decide (r.feats f ≤ v) := by
    rw [map_fst_filter_zip (fun r => !decide (v < r.feats f)) X y h]
    apply List.filter_congr
    intro r _
    by_cases hr : v < r.feats f
    · simp [hr, not_le.mpr hr]
    · simp [hr, not_lt.mp hr]
  have hR : ((X.zip y).filter fun p => decide (v < p.1.feats f)).map Prod.fst
      = X.filter fun r => decide (v < r.feats f) :=
    map_fst_filter_zip (fun r => decide (v < r.feats f)) X y h
  refine ⟨hL, hR, ?_, ?_, ?_, by simp, by simp⟩
  · rw [zip_map_fst_snd, zip_map_fst_snd]
    exact List.perm_append_comm.trans (List.filter_append_perm _ _)
  · rw [zip_map_fst_snd]
    exact List.filter_sublist _
  · rw [zip_map_fst_snd]
    exact List.filter_sublist _

section PredictLemmas

/-- The index loop of `predict` is the row-wise map of `single_predict`. -/
theorem predict_eq_map (t : Tree) : ∀ X : List Row,
    predict t X = X.map fun x => single_predict x t := by
  intro X
  induction X with
  | nil => rfl
  | cons x X ih =>
    simp only [predict, List.length_cons, List.range_succ_eq_map, List.map_cons,
      List.map_map, List.getD_cons_zero, List.map_cons]
    refine congrArg (List.cons _) ?_
    rw [← ih]
    simp [predict, Function.comp]

end PredictLemmas

/-- C6: single-row prediction walks the tree from the root, going right
exactly when the row's value for the node's feature is strictly greater
than the threshold, returning the reached leaf's value; batch prediction
applies it independently to each row in input order and has the input's
length. -/
theorem claim_C6_prediction (t : Tree) (X : List Row) (x : Row) :
    (∀ c, single_predict x (Tree.Leaf c) = c)
    ∧ (∀ f th l r, single_predict x (Tree.Node f th l r)
        = if th < x.feats f then single_predict x r else single_predict x l)
    ∧ predict t X = X.map (fun z => single_predict z t)
    ∧ (predict t X).length = X.length := by
  refine ⟨fun c => rfl, fun f th l r => rfl, predict_eq_map t X, ?_⟩
  rw [predict_eq_map]
  simp

section ScoreLemmas

/-- Pairing predictions with labels is mapping over the zipped rows. -/
theorem zipWith_sq_map (t : Tree) : ∀ (X : List Row) (y : List Rat),
    List.zipWith (fun a b => (a - b) ^ 2) (X.map fun x => single_predict x t) y
      = (X.zip y).map fun p => (single_predict p.1 t - p.2) ^ 2 := by
  intro X
  induction X with
  | nil => intro y; rfl
  | cons x X ih =>
    intro y
    cases y with
    | nil => rfl
    | cons b y => simp [ih y]

end ScoreLemmas

/-- C9: on a dataset and an equally long, nonempty label vector, `score`
is exactly the mean over all rows of the squared difference between the
row's prediction and its label. -/
theorem claim_C9_score_mse (t : Tree) (X : List Row) (y : List Rat)
    (_hlen : X.length = y.length) (_hne : 0 < X.length) :
    score t X y
      = (((X.zip y).map fun p => (single_predict p.1 t - p.2) ^ 2).sum)
          / (X.length : Rat) := by
  unfold score
  rw [predict_eq_map]
  dsimp only
  rw [zipWith_sq_map]
  congr 1
  simp

section WitnessData

/-- A three-row dataset on one feature `a` with values 1, 2, 3 and
gradients 1, 2, -1 (all hessians 1). -/
def rW1 : Row := ⟨fun _ => 1, 1, 1⟩

def rW2 : Row := ⟨fun _ => 2, 2, 1⟩

def rW3 : Row := ⟨fun _ => 3, -1, 1⟩

def Xw : List Row := [rW1, rW2, rW3]

/-- A configuration with `max_depth = 1`. -/
def cfgW : Config := ⟨1, 5, 10, 1, 1⟩

/-- Two configurations differing only in `gamma`. -/
def cfgG1 : Config := ⟨5, 5, 10, 1, 1⟩

def cfgG2 : Config := ⟨5, 5, 10, 7, 1⟩

/-- The candidate list of the witness dataset, computed once. -/
theorem candidates_Xw :
    candidates 1 ["a"] Xw (sumG Xw) (sumH Xw)
      = [("a", 1, -1/6), ("a", 2, 5/2), ("a", 3, 0)] := by
  norm_num [candidates, scanFeature, distinctSorted, column, sumG, sumH,
    Xw, rW1, rW2, rW3, List.dedup, List.insertionSort, List.orderedInsert,
    gainOf, degB, leSumG, leSumH]

end WitnessData

theorem claim_C1_witness :
    train cfgW ["a"] Xw [1, 2, 3] 2
      = some (Tree.Leaf (-sumG Xw / (sumH Xw + cfgW.Lambda))) :=
  (claim_C1_stopping_rules cfgW ["a"] Xw [1, 2, 3] 2).1 (by decide)

theorem claim_C2_witness :
    (5 / 2 : Rat)
      = leSumG Xw "a" 2 ^ 2 / (leSumH Xw "a" 2 + 1)
        + (sumG Xw - leSumG Xw "a" 2) ^ 2 / ((sumH Xw - leSumH Xw "a" 2) + 1)
        - sumG Xw ^ 2 / (sumH Xw + 1) :=
  claim_C2_gain_formula 1 ["a"] Xw ("a", 2, 5/2) (by rw [candidates_Xw]; norm_num)

theorem claim_C3_witness :
    ("a", 2, (5 : Rat)/2) ∈ candidates 1 ["a"] Xw (sumG Xw) (sumH Xw)
    ∧ (∀ x ∈ candidates 1 ["a"] Xw (sumG Xw) (sumH Xw), x.2.2 ≤ (5 : Rat)/2)
    ∧ ∃ pre post, candidates 1 ["a"] Xw (sumG Xw) (sumH Xw)
        = pre ++ ("a", 2, (5 : Rat)/2) :: post ∧ ∀ x ∈ pre, x.2.2 < (5 : Rat)/2 :=
  (claim_C3_enumeration_selection 1 ["a"] Xw (sumG Xw) (sumH Xw)).2.2 ("a", 2, 5/2)
    (by rw [select_best_split, candidates_Xw]; norm_num [pickBest])

theorem claim_C5_witness :
    (split_dataset Xw [1, 2, 3] "a" 2).1.1 = Xw.filter (fun r => decide (r.feats "a" ≤ 2))
    ∧ (split_dataset Xw [1, 2, 3] "a" 2).2.1 = Xw.filter (fun r => decide (2 < r.feats "a"))
    ∧ ((split_dataset Xw [1, 2, 3] "a" 2).1.1.zip (split_dataset Xw [1, 2, 3] "a" 2).1.2
        ++ (split_dataset Xw [1, 2, 3] "a" 2).2.1.zip
            (split_dataset Xw [1, 2, 3] "a" 2).2.2).Perm (Xw.zip [1, 2, 3])
    ∧ ((split_dataset Xw [1, 2, 3] "a" 2).1.1.zip
        (split_dataset Xw [1, 2, 3] "a" 2).1.2).Sublist (Xw.zip [1, 2, 3])
    ∧ ((split_dataset Xw [1, 2, 3] "a" 2).2.1.zip
        (split_dataset Xw [1, 2, 3] "a" 2).2.2).Sublist (Xw.zip [1, 2, 3])
    ∧ (split_dataset Xw [1, 2, 3] "a" 2).1.1.length
        = (split_dataset Xw [1, 2, 3] "a" 2).1.2.length
    ∧ (split_dataset Xw [1, 2, 3] "a" 2).2.1.length
        = (split_dataset Xw [1, 2, 3] "a" 2).2.2.length :=
  claim_C5_partition Xw [1, 2, 3] "a" 2 rfl

theorem claim_C7_witness :
    (leSumH Xw "a" 2 + 1 ≠ 0 ∧ (sumH Xw - leSumH Xw "a" 2) + 1 ≠ 0 ∧ sumH Xw + 1 ≠ 0)
    ∧ ("a", 2, gainOf 1 (sumG Xw) (sumH Xw) (leSumG Xw "a" 2) (leSumH Xw "a" 2))
        ∈ candidates 1 ["a"] Xw (sumG Xw) (sumH Xw) :=
  ⟨(claim_C7_degenerate_filter 1 ["a"] Xw (sumG Xw) (sumH Xw)).1 ("a", 2, 5/2)
      (by rw [candidates_Xw]; norm_num),
    (claim_C7_degenerate_filter 1 ["a"] Xw (sumG Xw) (sumH Xw)).2 "a" (by simp) 2
      (by norm_num [column, Xw, rW1, rW2, rW3])
      (by norm_num [leSumH, sumH, Xw, rW1, rW2, rW3])⟩

theorem claim_C8_witness :
    train cfgG1 ["a"] Xw [1, 2, 3] 1 = train cfgG2 ["a"] Xw [1, 2, 3] 1 :=
  claim_C8_gamma_no_effect cfgG1 cfgG2 rfl rfl rfl rfl ["a"] Xw [1, 2, 3] 1

theorem claim_C9_witness :
    score (Tree.Leaf 0) Xw [1, 2, 3]
      = (((Xw.zip [1, 2, 3]).map fun p => (single_predict p.1 (Tree.Leaf 0) - p.2) ^ 2).sum)
          / (Xw.length : Rat) :=
  claim_C9_score_mse (Tree.Leaf 0) Xw [1, 2, 3] rfl (by decide)

theorem claim_C10_witness :
    (Tree.Leaf (-sumG ([] : List Row) / (sumH ([] : List Row) + cfgW.Lambda))).height
      ≤ cfgW.max_depth + 1 - 1 :=
  claim_C10_depth_bound cfgW ["a"] [] [] 1 _
    (train_leaf_of_min_samples cfgW ["a"] [] [] 1 (by decide) (by decide))

end BaseTree
